import Mathlib

/-!
Verification of the `package_index` module (conda/package_index.py).

The module builds forward and reverse dependency graphs over a finite
package collection, computes depth-bounded transitive closures over those
graphs, and resolves jointly-compatible package/requirement sets.

The external collaborators (the `package` entity, the `satisfies`
constraint builder and the `find_inconsistent_specs` consistency checker)
are not part of the source; they are modelled from the spec as abstract
fields of the index structure.  Everything else is translated directly
from `package_index.py`.
-/

namespace CondaIndex

/-- Modelled from the spec: the package, requirement and constraint entities
are external to the source file, so the index carries their capabilities as
abstract data.  `P` is the package type, `R` the requirement type, `C` the
constraint type.  A package has a `name`, a set of declared requirements
(`requires`), a meta-flag (`is_meta`) and a match capability (`matches`).
A requirement has a target name (`req_name`), a version string
(`req_vstring`) and an optional exact build string (`req_build`, `none`
playing the role of a falsy/absent build).  `satisfies` turns a requirement
into a constraint and `find_inconsistent_specs` returns the conflicting
subset of a requirement set.  `pkg_filenames` is the filename dictionary
built in `__init__` (an association list standing for the Python dict) and
`pkgs` is the package collection `self.pkgs`. -/
structure PackageIndex (P R C : Type) where
  pkg_filenames : List (String × P)
  pkgs : Finset P
  name : P → String
  requires : P → Finset R
  is_meta : P → Bool
  pkg_matches : P → C → Bool
  satisfies : R → C
  find_inconsistent_specs : Finset R → Finset R
  req_name : R → String
  req_vstring : R → String
  req_build : R → Option String

variable {P R C : Type}

/-- Python dict access `d[k]` on the filename dictionary: `none` models the
`KeyError` raised on an absent key. -/
def dictLookup : List (String × P) → String → Option P
  | [], _ => none
  | (k, v) :: rest, key => if k = key then some v else dictLookup rest key

/-- `lookup_from_filename`: `return self.pkg_filenames[pkg_filename]`. -/
def lookup_from_filename (idx : PackageIndex P R C) (pkg_filename : String) :
    Option P :=
  dictLookup idx.pkg_filenames pkg_filename

/-- The archive suffix used throughout the module. -/
def archiveSuffix : String := ".tar.bz2"

/-- `lookup_from_canonical_name`:
`return self.pkg_filenames[canonical_name+'.tar.bz2']`. -/
def lookup_from_canonical_name (idx : PackageIndex P R C)
    (canonical_name : String) : Option P :=
  dictLookup idx.pkg_filenames (canonical_name ++ archiveSuffix)

/-- `lookup_from_name`:
`return set([pkg for pkg in self.pkgs if pkg.name == pkg_name])`. -/
def lookup_from_name [DecidableEq P] (idx : PackageIndex P R C)
    (pkg_name : String) : Finset P :=
  idx.pkgs.filter (fun pkg => idx.name pkg = pkg_name)

/-- `find_matches(constraint, pkgs=None)`: when the candidate argument is
`None` the whole collection `self.pkgs` is searched, otherwise exactly the
supplied candidates are filtered by `pkg.matches(constraint)`. -/
def find_matches [DecidableEq P] (idx : PackageIndex P R C) (constraint : C)
    (pkgs : Option (Finset P)) : Finset P :=
  (match pkgs with
    | none => idx.pkgs
    | some given => given).filter (fun pkg => idx.pkg_matches pkg constraint)

/-- Key set of the forward dependency dict built by `_compute_dependencies`:
every package of the collection except the meta packages
(`if pkg.is_meta: continue`). -/
def deps_keys [DecidableEq P] (idx : PackageIndex P R C) : Finset P :=
  idx.pkgs.filter (fun pkg => idx.is_meta pkg = false)

/-- Value stored by `_compute_dependencies` for a key package:
`deps[pkg] |= self.find_matches(satisfies(req))` over `pkg.requires`. -/
def deps_val [DecidableEq P] [DecidableEq R] (idx : PackageIndex P R C)
    (pkg : P) : Finset P :=
  (idx.requires pkg).biUnion
    (fun req => find_matches idx (idx.satisfies req) none)

/-- `self.deps.get(pkg, set())`: the forward dict with empty-set default. -/
def deps_get [DecidableEq P] [DecidableEq R] (idx : PackageIndex P R C)
    (pkg : P) : Finset P :=
  if pkg ∈ deps_keys idx then deps_val idx pkg else ∅

/-- Key set of the reverse dict built by `_compute_reverse_dependencies`:
exactly the packages occurring in some forward value set. -/
def rdeps_keys [DecidableEq P] [DecidableEq R] (idx : PackageIndex P R C) :
    Finset P :=
  (deps_keys idx).biUnion (fun pkg => deps_val idx pkg)

/-- `self.rdeps.get(pkg, set())`: for each forward pair `(pkg, deps)` and
each `dep ∈ deps`, `pkg` is recorded under `rdeps[dep]`; an absent key
defaults to the empty set. -/
def rdeps_get [DecidableEq P] [DecidableEq R] (idx : PackageIndex P R C)
    (dep : P) : Finset P :=
  (deps_keys idx).filter (fun pkg => dep ∈ deps_val idx pkg)

/-- The `while True` loop shared by `get_deps` and `get_reverse_deps`,
parameterized by the graph-with-default `g`.  The state is
`(pkgs, deps, lastDeps, iterations)` exactly as in the source; `lastDeps`
is `Option`-valued because `last_deps` starts as `None`.  The loop body is
`if max_depth and iterations >= max_depth: break` (Python truthiness:
`max_depth` counts only when nonzero), then `deps |= g(pkg)` over the
frontier, then `if deps == last_deps: break`, then
`pkgs = deps - pkgs; last_deps = deps; iterations += 1`.  The source loop
has no fuel; here an explicit fuel drives the recursion, and the fuel
chosen below is provably never exhausted. -/
def getDepsLoop [DecidableEq P] (g : P → Finset P) (maxDepth : Nat) :
    Nat → Finset P → Finset P → Option (Finset P) → Nat → Option (Finset P)
  | 0, _, _, _, _ => none
  | fuel + 1, pkgs, deps, lastDeps, iterations =>
    if maxDepth ≠ 0 ∧ maxDepth ≤ iterations then some deps
    else
      let deps2 := deps ∪ pkgs.biUnion g
      if some deps2 = lastDeps then some deps2
      else getDepsLoop g maxDepth fuel (deps2 \ pkgs) deps2 (some deps2)
        (iterations + 1)

/-- Fuel sufficient for the loop over graph `g` whose values live inside
the finite universe `univ`. -/
def loopFuel [DecidableEq P] (univ : Finset P) (maxDepth : Nat) : Nat :=
  univ.card + maxDepth + 2

/-- `get_deps(pkgs, max_depth=0)`: depth-bounded forward closure.  All
forward values lie inside `rdeps_keys idx`, which bounds the fuel. -/
def get_deps [DecidableEq P] [DecidableEq R] (idx : PackageIndex P R C)
    (pkgs : Finset P) (maxDepth : Nat) : Finset P :=
  (getDepsLoop (deps_get idx) maxDepth (loopFuel (rdeps_keys idx) maxDepth)
    pkgs ∅ none 0).getD ∅

/-- `get_reverse_deps(pkgs, max_depth=0)`: depth-bounded reverse closure.
All reverse values lie inside `deps_keys idx`, which bounds the fuel. -/
def get_reverse_deps [DecidableEq P] [DecidableEq R]
    (idx : PackageIndex P R C) (pkgs : Finset P) (maxDepth : Nat) :
    Finset P :=
  (getDepsLoop (rdeps_get idx) maxDepth (loopFuel (deps_keys idx) maxDepth)
    pkgs ∅ none 0).getD ∅

/-- The exact filename built for a build-pinned requirement in
`find_compatible_packages`:
`"%s-%s-%s.tar.bz2" % (req.name, req.version.vstring, req.build)`. -/
def pin_filename (idx : PackageIndex P R C) (req : R) : String :=
  idx.req_name req ++ "-" ++ idx.req_vstring req ++ "-" ++
    ((idx.req_build req).getD "") ++ archiveSuffix

/-- Candidates contributed by one requirement in the gathering phase of
`find_compatible_packages`: a build-pinned requirement is looked up by its
exact filename (raising, i.e. `none`, when absent), otherwise
`find_matches(satisfies(req))` over the whole collection. -/
def req_candidates [DecidableEq P] (idx : PackageIndex P R C) (req : R) :
    Option (Finset P) :=
  match idx.req_build req with
  | some _ =>
      (lookup_from_filename idx (pin_filename idx req)).map
        (fun pkg => {pkg})
  | none => some (find_matches idx (idx.satisfies req) none)

/-- `find_compatible_packages(reqs)`: gather the candidates of every
requirement (the whole call raises, i.e. returns `none`, as soon as one
build-pinned requirement has no indexed filename), then drop every
candidate `pkg` for which `find_inconsistent_specs(reqs | pkg.requires)`
is non-empty, and return the survivors. -/
def find_compatible_packages [DecidableEq P] [DecidableEq R]
    (idx : PackageIndex P R C) (reqs : Finset R) : Option (Finset P) :=
  if ∀ req ∈ reqs, (req_candidates idx req).isSome = true then
    let pkgs := reqs.biUnion (fun req => (req_candidates idx req).getD ∅)
    let to_remove := pkgs.filter
      (fun pkg => idx.find_inconsistent_specs (reqs ∪ idx.requires pkg) ≠ ∅)
    some (pkgs \ to_remove)
  else none

/-- Python truthiness of the `_deps` / `_rdeps` cache slot: falsy when it is
still `None` or when it holds an empty dict. -/
def cache_falsy [DecidableEq P] (cache : Option (Finset P)) : Bool :=
  match cache with
  | none => true
  | some d => decide (d = ∅)

/-- Result of one access to a lazily cached graph property: the value
returned to the caller, the cache slot afterwards, and whether this access
ran the compute step.  The cached dict is represented by its key set, since
its values are the pure functions `deps_val` / `rdeps_get` of the immutable
collection. -/
structure CacheAccess (P : Type) where
  result : Finset P
  cache : Option (Finset P)
  computed : Bool

/-- The `deps` property: `if not self._deps: self._deps =
self._compute_dependencies(); return self._deps`.  A falsy cache (unset, or
holding an empty dict) triggers recomputation. -/
def deps_property [DecidableEq P] [DecidableEq R] (idx : PackageIndex P R C)
    (cache : Option (Finset P)) : CacheAccess P :=
  if cache_falsy cache then
    ⟨deps_keys idx, some (deps_keys idx), true⟩
  else
    ⟨cache.getD ∅, cache, false⟩

/-- The `rdeps` property: same caching pattern over
`_compute_reverse_dependencies`. -/
def rdeps_property [DecidableEq P] [DecidableEq R]
    (idx : PackageIndex P R C) (cache : Option (Finset P)) : CacheAccess P :=
  if cache_falsy cache then
    ⟨rdeps_keys idx, some (rdeps_keys idx), true⟩
  else
    ⟨cache.getD ∅, cache, false⟩

/-- Reachability in at least one step along graph `g` starting from the
set `S`: the transitive closure of the dependency expansion from `S`. -/
inductive DepReach [DecidableEq P] (g : P → Finset P) (S : Finset P) :
    P → Prop where
  | base {p q : P} : p ∈ S → q ∈ g p → DepReach g S q
  | step {p q : P} : DepReach g S p → q ∈ g p → DepReach g S q

/-- A small concrete index used to evaluate the theorems: package `0`
(named `a`, no requirements), package `1` (named `b`, requiring spec `5`,
whose constraint `50` matches package `0`), and meta package `2`.
Requirement `3` also matches package `0`; requirement `7` pins build `"0"`
of `a` version `1.0`, whose exact filename is indexed. -/
def sampleIdx : PackageIndex Nat Nat Nat where
  pkg_filenames :=
    [("a-1.0-0.tar.bz2", 0), ("b-1.0-0.tar.bz2", 1), ("m-1.0-0.tar.bz2", 2)]
  pkgs := {0, 1, 2}
  name := fun p => if p = 0 then "a" else if p = 1 then "b" else "m"
  requires := fun p => if p = 1 then {5} else ∅
  is_meta := fun p => decide (p = 2)
  pkg_matches := fun p c => decide ((p = 0 ∧ c = 50) ∨ (p = 0 ∧ c = 30))
  satisfies := fun r => r * 10
  find_inconsistent_specs := fun _ => ∅
  req_name := fun _ => "a"
  req_vstring := fun _ => "1.0"
  req_build := fun r => if r = 7 then some "0" else none

/-- A concrete index with no packages at all.  Every requirement of its
sample universe pins build `"0"`, so `find_compatible_packages` hits the
raising filename lookup. -/
def emptyIdx : PackageIndex Nat Nat Nat where
  pkg_filenames := []
  pkgs := ∅
  name := fun _ => "x"
  requires := fun _ => ∅
  is_meta := fun _ => false
  pkg_matches := fun _ _ => false
  satisfies := fun r => r
  find_inconsistent_specs := fun _ => ∅
  req_name := fun _ => "a"
  req_vstring := fun _ => "1.0"
  req_build := fun _ => some "0"

/-- Membership in the forward dict with default: present exactly for
non-meta indexed packages, with the computed value set. -/
theorem mem_deps_get [DecidableEq P] [DecidableEq R] (idx : PackageIndex P R C)
    (p d : P) :
    d ∈ deps_get idx p ↔ p ∈ deps_keys idx ∧ d ∈ deps_val idx p := by
  unfold deps_get
  by_cases hp : p ∈ deps_keys idx <;> simp [hp]

/-- Membership in the reverse dict with default. -/
theorem mem_rdeps_get [DecidableEq P] [DecidableEq R] (idx : PackageIndex P R C)
    (p d : P) :
    p ∈ rdeps_get idx d ↔ p ∈ deps_keys idx ∧ d ∈ deps_val idx p := by
  unfold rdeps_get
  simp [Finset.mem_filter]

/-- C2: the reverse graph is the exact set-inverse of the forward graph —
for all packages `p`, `d`, `d ∈ deps[p] ⟺ p ∈ rdeps[d]` (with an absent
key reading as the empty set), and a package appears as a key of `rdeps`
exactly when it occurs in some forward dependency set, so a package that is
never any other package's dependency is not a key of `rdeps`. -/
theorem rdeps_exact_inverse [DecidableEq P] [DecidableEq R]
    (idx : PackageIndex P R C) :
    (∀ p d, d ∈ deps_get idx p ↔ p ∈ rdeps_get idx d) ∧
    (∀ d, d ∈ rdeps_keys idx ↔ ∃ p, d ∈ deps_get idx p) := by
  constructor
  · intro p d
    rw [mem_deps_get, mem_rdeps_get]
  · intro d
    unfold rdeps_keys
    simp only [Finset.mem_biUnion, mem_deps_get]

/-- C6: with no candidate set, `find_matches` searches the whole package
collection; with a candidate set `given` (empty included) it returns exactly
the matching subset of `given` and never a package outside `given`. -/
theorem find_matches_respects_candidates [DecidableEq P]
    (idx : PackageIndex P R C) (constraint : C) :
    find_matches idx constraint none =
      idx.pkgs.filter (fun pkg => idx.pkg_matches pkg constraint) ∧
    ∀ given : Finset P,
      find_matches idx constraint (some given) =
        given.filter (fun pkg => idx.pkg_matches pkg constraint) ∧
      find_matches idx constraint (some given) ⊆ given :=
  ⟨rfl, fun _ => ⟨rfl, Finset.filter_subset _ _⟩⟩

/-- C7: a package whose meta flag is set is never a key of the forward
dependency graph. -/
theorem meta_not_deps_key [DecidableEq P] (idx : PackageIndex P R C) (p : P)
    (h : idx.is_meta p = true) : p ∉ deps_keys idx := by
  simp [deps_keys, h]

/-- C7 witness: the meta package `2` of the sample index is not a key of
its forward graph. -/
theorem meta_not_deps_key_witness :
    sampleIdx.is_meta 2 = true ∧ 2 ∉ deps_keys sampleIdx :=
  ⟨by decide, meta_not_deps_key sampleIdx 2 (by decide)⟩

/-- C8: looking up a canonical name is exactly looking up that name with
the archive suffix appended — the same package when present, and the
lookup fails (`none`, the `KeyError` of the dict) exactly when the filename
lookup fails. -/
theorem lookup_canonical_name_roundtrip (idx : PackageIndex P R C)
    (n : String) :
    lookup_from_canonical_name idx n =
      lookup_from_filename idx (n ++ archiveSuffix) := rfl

/-- C4: whenever `find_compatible_packages` returns a set, every returned
package `p` passed the consistency filter: the external checker reports no
conflicting subset for `reqs ∪ p.requires`.  Candidates with a reported
conflict are removed before returning. -/
theorem find_compatible_packages_drops_inconsistent [DecidableEq P]
    [DecidableEq R] (idx : PackageIndex P R C) (reqs : Finset R)
    (result : Finset P) (p : P)
    (hres : find_compatible_packages idx reqs = some result)
    (hp : p ∈ result) :
    idx.find_inconsistent_specs (reqs ∪ idx.requires p) = ∅ := by
  unfold find_compatible_packages at hres
  split at hres
  · rw [Option.some_inj] at hres
    subst hres
    rw [Finset.mem_sdiff, Finset.mem_filter] at hp
    have := hp.2
    by_contra hne
    exact this ⟨hp.1, hne⟩
  · exact absurd hres (by simp)

/-- C4 witness: on the sample index, requirement `3` yields the single
compatible package `0`, whose combined requirement set is consistent. -/
theorem find_compatible_packages_drops_inconsistent_witness :
    find_compatible_packages sampleIdx {3} = some {0} ∧
    sampleIdx.find_inconsistent_specs ({3} ∪ sampleIdx.requires 0) = ∅ :=
  ⟨by decide,
    find_compatible_packages_drops_inconsistent sampleIdx {3} {0} 0
      (by decide) (by decide)⟩

/-- C5 counterexample: `find_compatible_packages` CAN raise `NotFound`.
On the empty index (so no requirement matches any indexed package), the
single requirement `0` pins an exact build, its constructed filename is
absent, and the direct dict access raises — modelled as `none`. -/
theorem find_compatible_packages_raises_on_absent_pin :
    emptyIdx.pkgs = ∅ ∧ find_compatible_packages emptyIdx {0} = none :=
  ⟨rfl, by decide⟩

/-- C5 as amended: `lookup_from_name`, `find_matches`, `get_deps`,
`get_reverse_deps` always return (possibly empty) collections, and
`find_compatible_packages` returns a collection rather than raising
provided every build-pinned requirement's constructed exact filename is
present in the index; a build-pinned requirement whose filename is absent
propagates the `NotFound` of the direct filename lookup. -/
theorem find_compatible_packages_no_raise [DecidableEq P] [DecidableEq R]
    (idx : PackageIndex P R C) (reqs : Finset R)
    (h : ∀ req ∈ reqs, (idx.req_build req).isSome = true →
      (lookup_from_filename idx (pin_filename idx req)).isSome = true) :
    (find_compatible_packages idx reqs).isSome = true := by
  unfold find_compatible_packages
  rw [if_pos]
  · rfl
  · intro req hreq
    unfold req_candidates
    cases hb : idx.req_build req with
    | none => rfl
    | some b =>
      have hl := h req hreq (by rw [hb]; rfl)
      cases hlk : lookup_from_filename idx (pin_filename idx req) with
      | none => rw [hlk] at hl; exact absurd hl (by simp)
      | some pkg => rfl

/-- C5 witness: on the sample index, the build-pinned requirement `7` has
its exact filename indexed, so `find_compatible_packages` returns a set. -/
theorem find_compatible_packages_no_raise_witness :
    (∀ req ∈ ({7} : Finset Nat), (sampleIdx.req_build req).isSome = true →
      (lookup_from_filename sampleIdx
        (pin_filename sampleIdx req)).isSome = true) ∧
    (find_compatible_packages sampleIdx {7}).isSome = true :=
  ⟨by decide, find_compatible_packages_no_raise sampleIdx {7} (by decide)⟩

/-- C9 counterexample: on the empty index the computed forward graph is
empty, so the cache slot stays falsy and the second access to the `deps`
property runs the compute step again — the graph is NOT computed at most
once per instance. -/
theorem deps_cache_recomputes_when_empty :
    (deps_property emptyIdx none).computed = true ∧
    (deps_property emptyIdx ((deps_property emptyIdx none).cache)).computed
      = true ∧
    (rdeps_property emptyIdx
      ((rdeps_property emptyIdx none).cache)).computed = true :=
  ⟨by decide, by decide, by decide⟩

/-- C9 as amended: each graph property is computed at most once per
instance whenever the computed graph is non-empty (the first access fills
the cache and the second access returns it without recomputing); when the
computed graph is empty, the falsy cache test recomputes it on every
access, which is harmless because recomputation is idempotent — every
access returns the identical graph of the immutable collection. -/
theorem graph_cache_behavior [DecidableEq P] [DecidableEq R]
    (idx : PackageIndex P R C) :
    (deps_property idx none).result = deps_keys idx ∧
    (deps_property idx ((deps_property idx none).cache)).result
      = deps_keys idx ∧
    (deps_keys idx ≠ ∅ →
      (deps_property idx ((deps_property idx none).cache)).computed
        = false) ∧
    (rdeps_property idx none).result = rdeps_keys idx ∧
    (rdeps_property idx ((rdeps_property idx none).cache)).result
      = rdeps_keys idx ∧
    (rdeps_keys idx ≠ ∅ →
      (rdeps_property idx ((rdeps_property idx none).cache)).computed
        = false) := by
  by_cases hd : deps_keys idx = ∅ <;>
    by_cases hr : rdeps_keys idx = ∅ <;>
      simp [deps_property, rdeps_property, cache_falsy, hd, hr]

/-- C9 witness: on the sample index both graphs are non-empty, the second
access of each property returns the cached graph without recomputation. -/
theorem graph_cache_behavior_witness :
    deps_keys sampleIdx ≠ ∅ ∧
    (deps_property sampleIdx
      ((deps_property sampleIdx none).cache)).computed = false ∧
    rdeps_keys sampleIdx ≠ ∅ ∧
    (rdeps_property sampleIdx
      ((rdeps_property sampleIdx none).cache)).computed = false :=
  ⟨by decide, (graph_cache_behavior sampleIdx).2.2.1 (by decide),
    by decide, (graph_cache_behavior sampleIdx).2.2.2.2.2 (by decide)⟩

/-- One unfolding of the loop at positive fuel. -/
theorem getDepsLoop_succ [DecidableEq P] (g : P → Finset P)
    (maxDepth fuel : Nat) (pkgs deps : Finset P)
    (lastDeps : Option (Finset P)) (iterations : Nat) :
    getDepsLoop g maxDepth (fuel + 1) pkgs deps lastDeps iterations =
      if maxDepth ≠ 0 ∧ maxDepth ≤ iterations then some deps
      else
        if some (deps ∪ pkgs.biUnion g) = lastDeps then
          some (deps ∪ pkgs.biUnion g)
        else getDepsLoop g maxDepth fuel ((deps ∪ pkgs.biUnion g) \ pkgs)
          (deps ∪ pkgs.biUnion g) (some (deps ∪ pkgs.biUnion g))
          (iterations + 1) := rfl

/-- Every forward dict value lives inside the reverse dict key set. -/
theorem deps_get_subset_rdeps_keys [DecidableEq P] [DecidableEq R]
    (idx : PackageIndex P R C) (p : P) :
    deps_get idx p ⊆ rdeps_keys idx := by
  unfold deps_get
  split
  · exact Finset.subset_biUnion_of_mem (deps_val idx) (by assumption)
  · exact Finset.empty_subset _

/-- Every reverse dict value lives inside the forward dict key set. -/
theorem rdeps_get_subset_deps_keys [DecidableEq P] [DecidableEq R]
    (idx : PackageIndex P R C) (d : P) :
    rdeps_get idx d ⊆ deps_keys idx :=
  Finset.filter_subset _ _

/-- With depth limit `0` (expand until fixed point) the loop reaches its
fixed-point break before the fuel runs out: the accumulated set grows
strictly inside the finite universe on every continuing iteration. -/
theorem getDepsLoop_zero_isSome [DecidableEq P] {g : P → Finset P}
    {univ : Finset P} (hg : ∀ p, g p ⊆ univ) :
    ∀ fuel (deps pkgs : Finset P) (iterations : Nat), deps ⊆ univ →
      univ.card - deps.card < fuel →
      (getDepsLoop g 0 fuel pkgs deps (some deps) iterations).isSome
        = true := by
  intro fuel
  induction fuel with
  | zero => intro deps pkgs iterations _ hcard; omega
  | succ n ih =>
    intro deps pkgs iterations hdeps hcard
    rw [getDepsLoop_succ]
    rw [if_neg (by simp)]
    by_cases hfix : deps ∪ pkgs.biUnion g = deps
    · rw [if_pos (by rw [hfix])]
      rfl
    · rw [if_neg (by simpa using hfix)]
      have hsub : deps ⊆ deps ∪ pkgs.biUnion g := Finset.subset_union_left
      have hss : deps ⊂ deps ∪ pkgs.biUnion g :=
        ⟨hsub, fun hback => hfix (Finset.Subset.antisymm hback hsub)⟩
      have hsubU : deps ∪ pkgs.biUnion g ⊆ univ := by
        apply Finset.union_subset hdeps
        exact Finset.biUnion_subset.mpr (fun p _ => hg p)
      have hlt : deps.card < (deps ∪ pkgs.biUnion g).card :=
        Finset.card_lt_card hss
      have hle : (deps ∪ pkgs.biUnion g).card ≤ univ.card :=
        Finset.card_le_card hsubU
      exact ih _ _ _ hsubU (by omega)

/-- With a positive depth limit the loop reaches the depth break (or an
earlier fixed-point break) before the fuel runs out. -/
theorem getDepsLoop_pos_isSome [DecidableEq P] (g : P → Finset P)
    {maxDepth : Nat} (hmd : maxDepth ≠ 0) :
    ∀ fuel (pkgs deps : Finset P) (lastDeps : Option (Finset P))
      (iterations : Nat), 0 < fuel → maxDepth < fuel + iterations →
      (getDepsLoop g maxDepth fuel pkgs deps lastDeps iterations).isSome
        = true := by
  intro fuel
  induction fuel with
  | zero => intro _ _ _ _ hpos _; omega
  | succ n ih =>
    intro pkgs deps lastDeps iterations _ hlt
    rw [getDepsLoop_succ]
    by_cases hbreak : maxDepth ≤ iterations
    · rw [if_pos ⟨hmd, hbreak⟩]
      rfl
    · rw [if_neg (fun hc => hbreak hc.2)]
      by_cases hfix : some (deps ∪ pkgs.biUnion g) = lastDeps
      · rw [if_pos hfix]
        rfl
      · rw [if_neg hfix]
        exact ih _ _ _ _ (by omega) (by omega)

/-- The top-level loop call of `get_deps` / `get_reverse_deps` always
returns within the chosen fuel, for every depth limit including `0`. -/
theorem getDepsLoop_top_isSome [DecidableEq P] {g : P → Finset P}
    {univ : Finset P} (hg : ∀ p, g p ⊆ univ) (maxDepth : Nat)
    (S : Finset P) :
    (getDepsLoop g maxDepth (loopFuel univ maxDepth) S ∅ none 0).isSome
      = true := by
  by_cases hmd : maxDepth = 0
  · subst hmd
    show (getDepsLoop g 0 (univ.card + 0 + 2) S ∅ none 0).isSome = true
    rw [show univ.card + 0 + 2 = (univ.card + 1) + 1 by omega]
    rw [getDepsLoop_succ]
    rw [if_neg (by simp)]
    rw [if_neg (by simp)]
    apply getDepsLoop_zero_isSome hg
    · apply Finset.union_subset (Finset.empty_subset _)
      exact Finset.biUnion_subset.mpr (fun p _ => hg p)
    · omega
  · apply getDepsLoop_pos_isSome g hmd
    · unfold loopFuel; omega
    · unfold loopFuel; omega

/-- C10: for every index, every finite input package set and every
non-negative depth limit (`0` included), the expansion loops of both
`get_deps` and `get_reverse_deps` terminate — the `while True` loop,
run with the fuel the definitions use, reaches one of its break
conditions and yields a result. -/
theorem get_deps_loops_terminate [DecidableEq P] [DecidableEq R]
    (idx : PackageIndex P R C) (pkgs : Finset P) (maxDepth : Nat) :
    getDepsLoop (deps_get idx) maxDepth
      (loopFuel (rdeps_keys idx) maxDepth) pkgs ∅ none 0
      = some (get_deps idx pkgs maxDepth) ∧
    getDepsLoop (rdeps_get idx) maxDepth
      (loopFuel (deps_keys idx) maxDepth) pkgs ∅ none 0
      = some (get_reverse_deps idx pkgs maxDepth) := by
  have h1 := getDepsLoop_top_isSome (deps_get_subset_rdeps_keys idx)
    maxDepth pkgs
  have h2 := getDepsLoop_top_isSome (rdeps_get_subset_deps_keys idx)
    maxDepth pkgs
  rcases Option.isSome_iff_exists.mp h1 with ⟨r1, hr1⟩
  rcases Option.isSome_iff_exists.mp h2 with ⟨r2, hr2⟩
  constructor
  · rw [hr1]
    unfold get_deps
    rw [hr1]
    rfl
  · rw [hr2]
    unfold get_reverse_deps
    rw [hr2]
    rfl

/-- With depth limit `1` the loop performs exactly one expansion round:
the depth break fires at the start of the second round. -/
theorem getDepsLoop_depth_one [DecidableEq P] (g : P → Finset P)
    (fuel : Nat) (S : Finset P) :
    getDepsLoop g 1 (fuel + 2) S ∅ none 0 = some (S.biUnion g) := by
  rw [show fuel + 2 = (fuel + 1) + 1 by omega, getDepsLoop_succ]
  rw [if_neg (by simp)]
  rw [if_neg (by simp)]
  rw [getDepsLoop_succ]
  rw [if_pos ⟨one_ne_zero, le_refl 1⟩]
  rw [Finset.empty_union]

/-- C3: one round of expansion equals direct graph lookup —
`get_deps(S, max_depth=1)` is the union over `p ∈ S` of
`deps.get(p, set())`, missing keys contributing the empty set. -/
theorem get_deps_depth_one [DecidableEq P] [DecidableEq R]
    (idx : PackageIndex P R C) (S : Finset P) :
    get_deps idx S 1 = S.biUnion (fun p => deps_get idx p) := by
  unfold get_deps loopFuel
  rw [getDepsLoop_depth_one]
  rfl

/-- Everything the loop accumulates is reachable from the start set:
the accumulated set and the frontier stay inside the transitive
closure of `S`. -/
theorem getDepsLoop_sound [DecidableEq P] {g : P → Finset P} {S : Finset P}
    (maxDepth : Nat) :
    ∀ fuel (pkgs deps : Finset P) (lastDeps : Option (Finset P))
      (iterations : Nat) (r : Finset P),
      getDepsLoop g maxDepth fuel pkgs deps lastDeps iterations = some r →
      (∀ q ∈ deps, DepReach g S q) →
      (∀ p ∈ pkgs, p ∈ S ∨ DepReach g S p) →
      ∀ q ∈ r, DepReach g S q := by
  intro fuel
  induction fuel with
  | zero => intro _ _ _ _ _ h _ _; exact absurd h (by simp [getDepsLoop])
  | succ n ih =>
    intro pkgs deps lastDeps iterations r hr hdeps hpkgs
    rw [getDepsLoop_succ] at hr
    have hdeps2 : ∀ q ∈ deps ∪ pkgs.biUnion g, DepReach g S q := by
      intro q hq
      rcases Finset.mem_union.mp hq with hq | hq
      · exact hdeps q hq
      · rcases Finset.mem_biUnion.mp hq with ⟨p, hp, hqg⟩
        rcases hpkgs p hp with hpS | hpR
        · exact DepReach.base hpS hqg
        · exact DepReach.step hpR hqg
    split at hr
    · rw [Option.some_inj] at hr
      subst hr
      exact hdeps
    · split at hr
      · rw [Option.some_inj] at hr
        subst hr
        exact hdeps2
      · exact ih _ _ _ _ _ hr hdeps2
          (fun p hp => Or.inr (hdeps2 p (Finset.mem_sdiff.mp hp).1))

/-- At depth limit `0`, the result of the loop contains the accumulated
set and is closed under the graph, given that every accumulated package
outside the current frontier has already been expanded. -/
theorem getDepsLoop_closed [DecidableEq P] {g : P → Finset P} :
    ∀ fuel (pkgs deps : Finset P) (iterations : Nat) (r : Finset P),
      getDepsLoop g 0 fuel pkgs deps (some deps) iterations = some r →
      (∀ p ∈ deps, p ∉ pkgs → g p ⊆ deps) →
      deps ⊆ r ∧ ∀ p ∈ r, g p ⊆ r := by
  intro fuel
  induction fuel with
  | zero => intro _ _ _ _ h _; exact absurd h (by simp [getDepsLoop])
  | succ n ih =>
    intro pkgs deps iterations r hr hinv
    rw [getDepsLoop_succ] at hr
    rw [if_neg (by simp)] at hr
    by_cases hfix : deps ∪ pkgs.biUnion g = deps
    · rw [if_pos (by rw [hfix])] at hr
      rw [Option.some_inj] at hr
      subst hr
      refine ⟨Finset.subset_union_left, ?_⟩
      intro p hp
      by_cases hppkgs : p ∈ pkgs
      · exact (Finset.subset_biUnion_of_mem g hppkgs).trans
          Finset.subset_union_right
      · have hpdeps : p ∈ deps := by rw [← hfix]; exact hp
        exact (hinv p hpdeps hppkgs).trans Finset.subset_union_left
    · rw [if_neg (by simpa using hfix)] at hr
      have hinv2 : ∀ p ∈ deps ∪ pkgs.biUnion g,
          p ∉ (deps ∪ pkgs.biUnion g) \ pkgs →
          g p ⊆ deps ∪ pkgs.biUnion g := by
        intro p hp hpn
        have hppkgs : p ∈ pkgs := by
          by_contra hc
          exact hpn (Finset.mem_sdiff.mpr ⟨hp, hc⟩)
        exact (Finset.subset_biUnion_of_mem g hppkgs).trans
          Finset.subset_union_right
      rcases ih _ _ _ _ hr hinv2 with ⟨hsub, hcl⟩
      exact ⟨Finset.subset_union_left.trans hsub, hcl⟩

/-- The loop never leaves a set `W` that contains the frontier and the
accumulated set and is closed under the graph. -/
theorem getDepsLoop_stays_inside [DecidableEq P] {g : P → Finset P}
    {W : Finset P} (hW : ∀ p ∈ W, g p ⊆ W) (maxDepth : Nat) :
    ∀ fuel (pkgs deps : Finset P) (lastDeps : Option (Finset P))
      (iterations : Nat) (r : Finset P),
      getDepsLoop g maxDepth fuel pkgs deps lastDeps iterations = some r →
      pkgs ⊆ W → deps ⊆ W → r ⊆ W := by
  intro fuel
  induction fuel with
  | zero => intro _ _ _ _ _ h _ _; exact absurd h (by simp [getDepsLoop])
  | succ n ih =>
    intro pkgs deps lastDeps iterations r hr hpkgs hdeps
    rw [getDepsLoop_succ] at hr
    have hd2 : deps ∪ pkgs.biUnion g ⊆ W :=
      Finset.union_subset hdeps
        (Finset.biUnion_subset.mpr (fun p hp => hW p (hpkgs hp)))
    split at hr
    · rw [Option.some_inj] at hr
      subst hr
      exact hdeps
    · split at hr
      · rw [Option.some_inj] at hr
        subst hr
        exact hd2
      · exact ih _ _ _ _ _ hr ((Finset.sdiff_subset).trans hd2) hd2

/-- The depth-`0` loop, with the fuel used by `get_deps`, returns exactly
the transitive closure of the graph from the start set. -/
theorem getDepsLoop_zero_closure [DecidableEq P] {g : P → Finset P}
    {univ : Finset P} (hg : ∀ p, g p ⊆ univ) (S : Finset P) :
    ∃ r, getDepsLoop g 0 (loopFuel univ 0) S ∅ none 0 = some r ∧
      ∀ q, q ∈ r ↔ DepReach g S q := by
  have hstep : getDepsLoop g 0 (loopFuel univ 0) S ∅ none 0 =
      getDepsLoop g 0 (univ.card + 1) (S.biUnion g \ S) (S.biUnion g)
        (some (S.biUnion g)) 1 := by
    show getDepsLoop g 0 (univ.card + 0 + 2) S ∅ none 0 = _
    rw [show univ.card + 0 + 2 = (univ.card + 1) + 1 by omega]
    rw [getDepsLoop_succ]
    rw [if_neg (by simp)]
    rw [if_neg (by simp)]
    rw [Finset.empty_union]
  have hbase : S.biUnion g ⊆ univ :=
    Finset.biUnion_subset.mpr (fun p _ => hg p)
  have hsome := getDepsLoop_zero_isSome hg (univ.card + 1) (S.biUnion g)
    (S.biUnion g \ S) 1 hbase (by omega)
  rcases Option.isSome_iff_exists.mp hsome with ⟨r, hr⟩
  refine ⟨r, by rw [hstep, hr], ?_⟩
  have hmemdep : ∀ q ∈ S.biUnion g, DepReach g S q := by
    intro q hq
    rcases Finset.mem_biUnion.mp hq with ⟨p, hp, hqg⟩
    exact DepReach.base hp hqg
  have hsound := getDepsLoop_sound (S := S) 0 (univ.card + 1) _ _ _ _ _ hr
    hmemdep (fun p hp => Or.inr (hmemdep p (Finset.mem_sdiff.mp hp).1))
  have hclosed := getDepsLoop_closed (univ.card + 1) _ _ _ _ hr
    (by
      intro p hp hpn
      have hpS : p ∈ S := by
        by_contra hc
        exact hpn (Finset.mem_sdiff.mpr ⟨hp, hc⟩)
      exact Finset.subset_biUnion_of_mem g hpS)
  intro q
  constructor
  · exact hsound q
  · intro hreach
    induction hreach with
    | base hp hqg =>
        exact hclosed.1 (Finset.mem_biUnion.mpr ⟨_, hp, hqg⟩)
    | step _ hqg ih2 => exact hclosed.2 _ ih2 hqg

/-- C1: `get_deps(S, max_depth=0)` computes the full transitive closure of
the forward dependency graph from `S`, and it is a fixed point of the
dependency expansion — re-running `get_deps` on the result, with any depth
limit, adds no new packages. -/
theorem get_deps_zero_fixed_point [DecidableEq P] [DecidableEq R]
    (idx : PackageIndex P R C) (S : Finset P) :
    (∀ q, q ∈ get_deps idx S 0 ↔ DepReach (deps_get idx) S q) ∧
    ∀ maxDepth, get_deps idx (get_deps idx S 0) maxDepth ⊆
      get_deps idx S 0 := by
  rcases getDepsLoop_zero_closure (deps_get_subset_rdeps_keys idx) S with
    ⟨r, hloop, hchar⟩
  have hD : get_deps idx S 0 = r := by
    unfold get_deps
    rw [hloop]
    rfl
  rw [hD]
  refine ⟨hchar, ?_⟩
  intro maxDepth
  have hclosed : ∀ p ∈ r, deps_get idx p ⊆ r := by
    intro p hp q hq
    exact (hchar q).mpr (DepReach.step ((hchar p).mp hp) hq)
  unfold get_deps
  cases h2 : getDepsLoop (deps_get idx) maxDepth
      (loopFuel (rdeps_keys idx) maxDepth) r ∅ none 0 with
  | none => simp
  | some r2 =>
    simp only [Option.getD_some]
    exact getDepsLoop_stays_inside hclosed maxDepth _ _ _ _ _ _ h2
      (Finset.Subset.refl r) (Finset.empty_subset r)

end CondaIndex
